import Mathlib

/-!
Verification of the nigsp graph-signal-processing core against its
specification.  The Python operations of `nigsp/operations/laplacian.py`,
`timeseries.py`, `metrics.py` and `surrogates.py` are shallowly embedded:
numpy float arrays become rational-valued matrices or lists, fallible
functions return `Except String`, and the seeded random generator is made
an explicit parameter.  Machine floating point is modelled by exact
rational arithmetic.
-/

namespace Nigsp

/-- A square numpy array of floats is embedded as a rational matrix. -/
abbrev Mat (n : ℕ) := Fin n → Fin n → ℚ

/-- All entries of a square matrix, row-major (numpy's flattening order). -/
def entriesL {n : ℕ} (A : Mat n) : List ℚ :=
  (List.finRange n).flatMap (fun i => (List.finRange n).map (A i))

/-- Embedding of `mtx.min()` (the default 0 is unreachable for n > 0). -/
def mtxMin {n : ℕ} (A : Mat n) : ℚ := ((entriesL A).min?).getD 0

/-- Embedding of `mtx.max()` (the default 0 is unreachable for n > 0). -/
def mtxMax {n : ℕ} (A : Mat n) : ℚ := ((entriesL A).max?).getD 0

/-- Embedding of `abs(mtx)` (the `negval="absolute"` branch). -/
def absMtx {n : ℕ} (A : Mat n) : Mat n := fun i j => |A i j|

/-- Embedding of `mtx[mtx < 0] = 0` (the `negval="remove"` branch). -/
def removeNeg {n : ℕ} (A : Mat n) : Mat n :=
  fun i j => if A i j < 0 then 0 else A i j

/-- Embedding of `mtx = (mtx - mtx.min()) / mtx.max()` (the
`negval="rescale"` branch): both extrema are those of the original matrix,
since numpy evaluates the whole right-hand side before rebinding `mtx`. -/
def rescaledMtx {n : ℕ} (A : Mat n) : Mat n :=
  fun i j => (A i j - mtxMin A) / mtxMax A

/-- The negative-value dispatch opening `compute_laplacian`: it only runs
when `mtx.min() < 0`, and raises `NotImplementedError` for an unknown
`negval` only inside that branch. -/
def resolve_negval {n : ℕ} (negval : String) (A : Mat n) :
    Except String (Mat n) :=
  if mtxMin A < 0 then
    if negval = "absolute" then .ok (absMtx A)
    else if negval = "remove" then .ok (removeNeg A)
    else if negval = "rescale" then .ok (rescaledMtx A)
    else .error ("Behaviour " ++ negval ++
      " to deal with negative values is not supported")
  else .ok A

/-- The `selfloops` argument of `compute_laplacian`: `False`/`True`, an
explicit 1D array of loop weights, or the literal string `"degree"`. -/
inductive Selfloops (n : ℕ) where
  | bool (b : Bool)
  | vec (v : Fin n → ℚ)
  | deg

/-- Row sum of the off-diagonal entries: the value written on the diagonal
by the `selfloops="degree"` branch (the diagonal is zeroed first, then set
to the row sums of the zero-diagonal matrix). -/
def offdiagRowSum {n : ℕ} (M : Mat n) (i : Fin n) : ℚ :=
  ∑ j, if i = j then 0 else M i j

/-- The adjacency matrix built by `compute_laplacian` from the resolved
matrix according to `selfloops`. -/
def adjacencyOf {n : ℕ} (sl : Selfloops n) (M : Mat n) : Mat n :=
  match sl with
  | .bool false => fun i j => if i = j then 0 else M i j
  | .bool true => M
  | .vec v => fun i j => if i = j then v i else M i j
  | .deg => fun i j => if i = j then offdiagRowSum M i else M i j

/-- Embedding of `adjacency.sum(axis=1)`: the degree vector. -/
def degreeOf {n : ℕ} (A : Mat n) : Fin n → ℚ := fun i => ∑ j, A i j

/-- Embedding of `compute_laplacian(mtx, negval, selfloops)` from
`nigsp/operations/laplacian.py`: resolve negative values, build the
adjacency, and return `degree_mat - adjacency` with the degree vector. -/
def compute_laplacian {n : ℕ} (A : Mat n) (negval : String)
    (sl : Selfloops n) : Except String (Mat n × (Fin n → ℚ)) :=
  match resolve_negval negval A with
  | .error e => .error e
  | .ok M =>
    let adjacency := adjacencyOf sl M
    let degree := degreeOf adjacency
    .ok (fun i j => (if i = j then degree i else 0) - adjacency i j, degree)

/-- A concrete non-negative 2 by 2 matrix: rows (1, 2) and (3, 4). -/
def matPos : Mat 2 := fun i j =>
  if i = 0 then (if j = 0 then 1 else 2) else (if j = 0 then 3 else 4)

/-- A concrete 2 by 2 matrix with a negative entry: rows (-1, 2), (0, 1). -/
def matNeg : Mat 2 := fun i j =>
  if i = 0 then (if j = 0 then -1 else 2) else (if j = 0 then 0 else 1)

end Nigsp

namespace Nigsp

/-- Every matrix entry occurs in the entry list. -/
theorem mem_entriesL {n : ℕ} (A : Mat n) (i j : Fin n) :
    A i j ∈ entriesL A := by
  simp only [entriesL, List.mem_flatMap, List.mem_map, List.mem_finRange]
  exact ⟨i, trivial, j, trivial, rfl⟩

/-- For a non-trivial matrix the entry list computes the minimum. -/
theorem min?_entriesL {n : ℕ} (A : Mat n) (hn : 0 < n) :
    (entriesL A).min? = some (mtxMin A) := by
  have hne : entriesL A ≠ [] :=
    List.ne_nil_of_mem (mem_entriesL A ⟨0, hn⟩ ⟨0, hn⟩)
  cases h : (entriesL A).min? with
  | none => exact absurd (List.min?_eq_none_iff.mp h) hne
  | some a => simp [mtxMin, h]

/-- For a non-trivial matrix the entry list computes the maximum. -/
theorem max?_entriesL {n : ℕ} (A : Mat n) (hn : 0 < n) :
    (entriesL A).max? = some (mtxMax A) := by
  have hne : entriesL A ≠ [] :=
    List.ne_nil_of_mem (mem_entriesL A ⟨0, hn⟩ ⟨0, hn⟩)
  cases h : (entriesL A).max? with
  | none => exact absurd (List.max?_eq_none_iff.mp h) hne
  | some a => simp [mtxMax, h]

instance ratLeAntisymm : Std.Antisymm (fun (a b : ℚ) => a ≤ b) :=
  ⟨fun h1 h2 => le_antisymm h1 h2⟩

/-- Specification bridge for `List.min?` on the rationals. -/
theorem min?_spec {l : List ℚ} {a : ℚ} (h : l.min? = some a) :
    a ∈ l ∧ ∀ b ∈ l, a ≤ b :=
  (List.min?_eq_some_iff (fun _ => le_refl _) (fun a b => min_choice a b)
    (fun _ _ _ => le_min_iff)).mp h

/-- Specification bridge for `List.max?` on the rationals. -/
theorem max?_spec {l : List ℚ} {a : ℚ} (h : l.max? = some a) :
    a ∈ l ∧ ∀ b ∈ l, b ≤ a :=
  (List.max?_eq_some_iff (fun _ => le_refl _) (fun a b => max_choice a b)
    (fun _ _ _ => max_le_iff)).mp h

/-- The matrix minimum is a lower bound on every entry. -/
theorem mtxMin_le {n : ℕ} (A : Mat n) (hn : 0 < n) (i j : Fin n) :
    mtxMin A ≤ A i j :=
  ((min?_spec (min?_entriesL A hn)).2) _ (mem_entriesL A i j)

/-- The matrix minimum is attained at some entry. -/
theorem mtxMin_attained {n : ℕ} (A : Mat n) (hn : 0 < n) :
    ∃ i j, A i j = mtxMin A := by
  have hmem := (min?_spec (min?_entriesL A hn)).1
  simp only [entriesL, List.mem_flatMap, List.mem_map, List.mem_finRange]
    at hmem
  obtain ⟨i, -, j, -, hij⟩ := hmem
  exact ⟨i, j, hij⟩

/-- The matrix maximum is an upper bound on every entry. -/
theorem le_mtxMax {n : ℕ} (A : Mat n) (hn : 0 < n) (i j : Fin n) :
    A i j ≤ mtxMax A :=
  ((max?_spec (max?_entriesL A hn)).2) _ (mem_entriesL A i j)

/-- The matrix maximum is attained at some entry. -/
theorem mtxMax_attained {n : ℕ} (A : Mat n) (hn : 0 < n) :
    ∃ i j, A i j = mtxMax A := by
  have hmem := (max?_spec (max?_entriesL A hn)).1
  simp only [entriesL, List.mem_flatMap, List.mem_map, List.mem_finRange]
    at hmem
  obtain ⟨i, -, j, -, hij⟩ := hmem
  exact ⟨i, j, hij⟩

/-- C1 counterexample: `compute_laplacian` does not fail on the square
matrix `matPos` with the unsupported `negval` value "bogus" - the dispatch
only runs when the matrix minimum is negative, so the call succeeds. -/
theorem C1_counterexample_nonneg_matrix_ok :
    ∃ r, compute_laplacian matPos "bogus" (.bool false) = .ok r := by
  refine ⟨(fun i j =>
      (if i = j then degreeOf (adjacencyOf (.bool false) matPos) i else 0) -
        adjacencyOf (.bool false) matPos i j,
      degreeOf (adjacencyOf (.bool false) matPos)), ?_⟩
  with_unfolding_all rfl

/-- C1 (amended): for a square matrix whose minimum entry is negative,
any `negval` outside the three supported modes makes `compute_laplacian`
fail with an error naming the received value; when the matrix has no
negative entry, the dispatch is skipped and the call always succeeds. -/
theorem C1_invalid_negval {n : ℕ} (A : Mat n) (negval : String)
    (sl : Selfloops n) :
    (mtxMin A < 0 → negval ≠ "absolute" → negval ≠ "remove" →
      negval ≠ "rescale" →
      compute_laplacian A negval sl = .error ("Behaviour " ++ negval ++
        " to deal with negative values is not supported")) ∧
    (0 ≤ mtxMin A → ∃ r, compute_laplacian A negval sl = .ok r) := by
  constructor
  · intro hneg h1 h2 h3
    simp [compute_laplacian, resolve_negval, hneg, h1, h2, h3]
  · intro hge
    have hres : resolve_negval negval A = .ok A := by
      simp [resolve_negval, not_lt.mpr hge]
    refine ⟨(fun i j =>
      (if i = j then degreeOf (adjacencyOf sl A) i else 0) -
        adjacencyOf sl A i j, degreeOf (adjacencyOf sl A)), ?_⟩
    simp [compute_laplacian, hres]

/-- C1 witness: at the concrete matrices `matNeg` (negative minimum) and
`matPos` (non-negative), with the unsupported value "bogus". -/
theorem C1_witness :
    compute_laplacian matNeg "bogus" (.bool false) =
      .error ("Behaviour " ++ "bogus" ++
        " to deal with negative values is not supported") ∧
    ∃ r, compute_laplacian matPos "bogus" (.bool false) = .ok r :=
  ⟨(C1_invalid_negval matNeg "bogus" (.bool false)).1 (by decide)
      (by decide) (by decide) (by decide),
    (C1_invalid_negval matPos "bogus" (.bool false)).2 (by decide)⟩

/-- C4: whenever `compute_laplacian` succeeds with self-loops removed,
every row of the returned Laplacian sums to zero - the diagonal degree
entry cancels the adjacency row sum. -/
theorem C4_laplacian_row_sum {n : ℕ} (A : Mat n) (negval : String)
    (L : Mat n) (d : Fin n → ℚ)
    (h : compute_laplacian A negval (.bool false) = .ok (L, d)) (i : Fin n) :
    ∑ j, L i j = 0 := by
  unfold compute_laplacian at h
  cases hr : resolve_negval negval A with
  | error e => rw [hr] at h; exact absurd h (by simp)
  | ok M =>
    rw [hr] at h
    simp only [Except.ok.injEq, Prod.mk.injEq] at h
    obtain ⟨hL, -⟩ := h
    subst hL
    rw [Finset.sum_sub_distrib]
    simp [degreeOf]

/-- C4 witness: the row sums of the Laplacian of the concrete matrix
`matNeg` (with `negval="absolute"`, self-loops removed) vanish. -/
theorem C4_witness :
    ∑ j, ((fun (i j : Fin 2) =>
      (if i = j then degreeOf (adjacencyOf (.bool false) (absMtx matNeg)) i
        else 0) - adjacencyOf (.bool false) (absMtx matNeg) i j) 0 j) = 0 :=
  C4_laplacian_row_sum matNeg "absolute"
    (fun i j =>
      (if i = j then degreeOf (adjacencyOf (.bool false) (absMtx matNeg)) i
        else 0) - adjacencyOf (.bool false) (absMtx matNeg) i j)
    (degreeOf (adjacencyOf (.bool false) (absMtx matNeg)))
    (by with_unfolding_all rfl) 0

/-- C9 counterexample: on the matrix `matNeg` (minimum -1, maximum 2) the
`negval="rescale"` branch maps entries to `(x - min) / max`, so the
maximum of the rescaled matrix is 3/2, not the original maximum 2; the
claimed rescaling up to the original maximum fails. -/
theorem C9_counterexample_rescale_max :
    mtxMin matNeg < 0 ∧
    resolve_negval "rescale" matNeg = .ok (rescaledMtx matNeg) ∧
    mtxMax (rescaledMtx matNeg) = 3 / 2 ∧ mtxMax matNeg = 2 ∧
    (3 / 2 : ℚ) ≠ 2 := by
  refine ⟨by decide, by with_unfolding_all rfl, ?_, by decide, by norm_num⟩
  with_unfolding_all rfl

/-- C9 (amended): for a matrix with a negative entry and positive maximum,
the rescale branch maps every entry `x` to `(x - min) / max`; the minimum
of the rescaled matrix is 0 and its maximum is `(max - min) / max` (which
differs from the original maximum in general). -/
theorem C9_rescale_bounds {n : ℕ} (A : Mat n) (hn : 0 < n)
    (hneg : mtxMin A < 0) (hmax : 0 < mtxMax A) :
    resolve_negval "rescale" A = .ok (rescaledMtx A) ∧
    mtxMin (rescaledMtx A) = 0 ∧
    mtxMax (rescaledMtx A) = (mtxMax A - mtxMin A) / mtxMax A := by
  refine ⟨by simp [resolve_negval, hneg], ?_, ?_⟩
  · obtain ⟨i0, j0, hij0⟩ := mtxMin_attained A hn
    have hub : mtxMin (rescaledMtx A) ≤ 0 := by
      have h1 := mtxMin_le (rescaledMtx A) hn i0 j0
      simpa [rescaledMtx, hij0] using h1
    have hlb : 0 ≤ mtxMin (rescaledMtx A) := by
      obtain ⟨i1, j1, hij1⟩ := mtxMin_attained (rescaledMtx A) hn
      rw [← hij1]
      have hA := mtxMin_le A hn i1 j1
      have hnum : (0 : ℚ) ≤ A i1 j1 - mtxMin A := by linarith
      exact div_nonneg hnum (le_of_lt hmax)
    linarith
  · obtain ⟨i0, j0, hij0⟩ := mtxMax_attained A hn
    have hlb : (mtxMax A - mtxMin A) / mtxMax A ≤ mtxMax (rescaledMtx A) := by
      have h1 := le_mtxMax (rescaledMtx A) hn i0 j0
      simpa [rescaledMtx, hij0] using h1
    have hub : mtxMax (rescaledMtx A) ≤ (mtxMax A - mtxMin A) / mtxMax A := by
      obtain ⟨i1, j1, hij1⟩ := mtxMax_attained (rescaledMtx A) hn
      rw [← hij1]
      have hA := le_mtxMax A hn i1 j1
      have hsub : A i1 j1 - mtxMin A ≤ mtxMax A - mtxMin A := by linarith
      exact div_le_div_of_nonneg_right hsub hmax.le
    linarith

/-- C9 witness: the amended rescale description at the concrete matrix
`matNeg`. -/
theorem C9_witness :
    resolve_negval "rescale" matNeg = .ok (rescaledMtx matNeg) ∧
    mtxMin (rescaledMtx matNeg) = 0 ∧
    mtxMax (rescaledMtx matNeg) = (mtxMax matNeg - mtxMin matNeg) /
      mtxMax matNeg :=
  C9_rescale_bounds matNeg (by decide) (by decide) (by decide)

/-- Embedding of `np.trapz` with unit spacing on a 1D array: the sum of
the averages of adjacent samples (0 on fewer than two samples). -/
def trapz : List ℚ → ℚ
  | a :: b :: rest => (a + b) / 2 + trapz (b :: rest)
  | _ => 0

/-- Mean of a list of rationals (numpy `mean` over one axis). -/
def listMean (l : List ℚ) : ℚ := l.sum / l.length

/-- The energy argument of `median_cutoff_frequency_idx`: a 1D power
spectrum, or a 2D modes-by-subjects array (3D and above raise in the
source and are outside this embedding). -/
inductive Energy where
  | oneD (e : List ℚ)
  | twoD (e : List (List ℚ))

/-- The 1D vector the search loop actually runs on: a 2D energy is first
averaged across the subject axis (`energy.mean(axis=-1)`). -/
def energyVec : Energy → List ℚ
  | .oneD e => e
  | .twoD e => e.map listMean

/-- Embedding of `median_cutoff_frequency_idx` from
`nigsp/operations/timeseries.py`: scan `freq_idx` over `range(1, size)`
and stop at the first index whose prefix trapezoidal area reaches half of
the total area; if no index in that range reaches it, the loop falls
through and the last scanned index `size - 1` is returned. -/
def median_cutoff_frequency_idx (energy : Energy) : ℕ :=
  let e := energyVec energy
  let half := trapz e / 2
  match (List.range' 1 (e.length - 1)).find?
      (fun k => decide (half ≤ trapz (e.take k))) with
  | some k => k
  | none => e.length - 1

/-- A found element of a `find?` over `range'` satisfies the predicate,
lies in the scanned interval, and no earlier index satisfies it. -/
theorem find?_range'_some (p : ℕ → Bool) :
    ∀ (s len k : ℕ), (List.range' s len).find? p = some k →
      p k = true ∧ s ≤ k ∧ k < s + len ∧
        ∀ j, s ≤ j → j < k → p j = false := by
  intro s len
  induction len generalizing s with
  | zero => intro k h; simp [List.range'] at h
  | succ m ih =>
    intro k h
    rw [List.range'_succ] at h
    by_cases hp : p s = true
    · rw [List.find?_cons_of_pos _ hp] at h
      obtain rfl : s = k := by simpa using h
      exact ⟨hp, le_refl _, by omega, fun j h1 h2 => absurd (by omega) h2.not_le⟩
    · rw [List.find?_cons_of_neg _ hp] at h
      obtain ⟨hk, h1, h2, h3⟩ := ih (s + 1) k h
      refine ⟨hk, by omega, by omega, fun j hj1 hj2 => ?_⟩
      rcases Nat.eq_or_lt_of_le hj1 with rfl | hlt
      · simpa using hp
      · exact h3 j hlt hj2

/-- When `find?` over `range'` fails, no scanned index satisfies the
predicate. -/
theorem find?_range'_none (p : ℕ → Bool) :
    ∀ (s len : ℕ), (List.range' s len).find? p = none →
      ∀ j, s ≤ j → j < s + len → p j = false := by
  intro s len h j h1 h2
  have := List.find?_eq_none.mp h j (by rw [List.mem_range'_1]; omega)
  simpa using this

/-- C3 counterexample: on the 1D energy `[0, 0, 2]` the function returns
2, yet the prefix area of the first 2 samples (0) has not reached half of
the total area (1/2) - the first index whose prefix area reaches half is
3, outside the scanned range, so the returned index is not "the smallest
index k such that the cumulative trapezoidal area over the first k samples
reaches half of the total". -/
theorem C3_counterexample_no_reaching_index :
    median_cutoff_frequency_idx (.oneD [0, 0, 2]) = 2 ∧
    ¬ (trapz [0, 0, 2] / 2 ≤ trapz ([0, 0, 2].take 2)) ∧
    trapz [0, 0, 2] / 2 ≤ trapz ([0, 0, 2].take 3) := by
  refine ⟨by with_unfolding_all rfl, by norm_num [trapz], by norm_num [trapz]⟩

/-- C3 (amended): `median_cutoff_frequency_idx` returns the smallest index
k in `range(1, size)` whose prefix trapezoidal area reaches half of the
total trapezoidal area, falling back to `size - 1` when no scanned index
reaches it; a 2D energy is first averaged across the subject axis; and on
the concrete energy `[[0,3],[1,2],[0,1],[0.5,0.5]]` it returns 2. -/
theorem C3_cutoff_characterization :
    (∀ e : List ℚ, 2 ≤ e.length →
      1 ≤ median_cutoff_frequency_idx (.oneD e) ∧
      median_cutoff_frequency_idx (.oneD e) ≤ e.length - 1 ∧
      (trapz e / 2 ≤ trapz (e.take (median_cutoff_frequency_idx (.oneD e))) ∨
        median_cutoff_frequency_idx (.oneD e) = e.length - 1) ∧
      (∀ k, 1 ≤ k → k < median_cutoff_frequency_idx (.oneD e) →
        trapz (e.take k) < trapz e / 2)) ∧
    (∀ e2 : List (List ℚ), median_cutoff_frequency_idx (.twoD e2) =
      median_cutoff_frequency_idx (.oneD (e2.map listMean))) ∧
    median_cutoff_frequency_idx
      (.twoD [[0, 3], [1, 2], [0, 1], [1/2, 1/2]]) = 2 := by
  refine ⟨?_, fun e2 => rfl, by with_unfolding_all rfl⟩
  intro e hlen
  cases hf : (List.range' 1 (e.length - 1)).find?
      (fun k => decide (trapz e / 2 ≤ trapz (e.take k))) with
  | some k =>
    have hres : median_cutoff_frequency_idx (.oneD e) = k := by
      simp [median_cutoff_frequency_idx, energyVec, hf]
    obtain ⟨hk, h1, h2, h3⟩ := find?_range'_some _ 1 (e.length - 1) k hf
    rw [hres]
    refine ⟨h1, by omega, Or.inl (by simpa using hk), fun j hj1 hj2 => ?_⟩
    have := h3 j hj1 hj2
    simpa [not_le] using this
  | none =>
    have hres : median_cutoff_frequency_idx (.oneD e) = e.length - 1 := by
      simp [median_cutoff_frequency_idx, energyVec, hf]
    rw [hres]
    refine ⟨by omega, le_refl _, Or.inr rfl, fun j hj1 hj2 => ?_⟩
    have := find?_range'_none
      (fun k => decide (trapz e / 2 ≤ trapz (e.take k)))
      1 (e.length - 1) hf j hj1 (by omega)
    simpa [not_le] using this

/-- C3 witness: on the averaged concrete energy `[3/2, 3/2, 1/2, 1/2]` the
returned index is at least 1. -/
theorem C3_witness :
    1 ≤ median_cutoff_frequency_idx (.oneD [3/2, 3/2, 1/2, 1/2]) :=
  (C3_cutoff_characterization.1 [3/2, 3/2, 1/2, 1/2] (by norm_num)).1

/-- Zero-padded three-digit rendering used by the generated band keys
(`f"key-NNN"` with format `03d`). -/
def pad3 (k : ℕ) : String :=
  if k < 10 then "00" ++ toString k
  else if k < 100 then "0" ++ toString k
  else toString k

/-- Embedding of the key-count fixing step of `graph_filter`
(timeseries.py lines 390-406), `nf` being `len(freq_idx)`.  Both warning
branches interpolate `keys[len(freq_idx)]` into the log message before
doing anything else; in the too-few-keys branch that subscript is always
out of range (`len(keys) <= nf`), so the message itself raises IndexError
and the `key-NNN` auto-generation loop below it is unreachable. -/
def fix_keys (keys : List String) (nf : ℕ) : Except String (List String) :=
  if nf + 1 < keys.length then
    match keys[nf]? with
    | none => .error "IndexError"
    | some _ => .ok (keys.take (nf + 1))
  else if keys.length < nf + 1 then
    match keys[nf]? with
    | none => .error "IndexError"
    | some _ => .ok (keys ++
        (List.range' keys.length (nf + 1 - keys.length)).map
          (fun i => "key-" ++ pad3 (i + 1)))
  else .ok keys

/-- C2: whenever fewer keys than `len(freq_idx) + 1` are supplied,
`graph_filter`'s key fixing raises IndexError while building the warning
message (instead of auto-generating the missing keys as the spec and the
dead auto-generation loop intend); oversupplied keys are indeed dropped.
This theorem records what the code actually does at the failing input
class. -/
theorem C2_too_few_keys_index_error (keys : List String) (nf : ℕ) :
    (keys.length < nf + 1 → fix_keys keys nf = .error "IndexError") ∧
    (nf + 1 < keys.length → fix_keys keys nf = .ok (keys.take (nf + 1))) := by
  constructor
  · intro hlt
    have hnone : keys[nf]? = none := by
      rw [List.getElem?_eq_none_iff]
      omega
    have hfst : ¬ (nf + 1 < keys.length) := by omega
    simp [fix_keys, hfst, hlt, hnone]
  · intro hgt
    obtain ⟨a, ha⟩ : ∃ a, keys[nf]? = some a :=
      ⟨_, List.getElem?_eq_getElem (by omega)⟩
    simp [fix_keys, hgt, ha]

/-- C2 witness: with one key and one cutoff index (two bands expected),
the key fixing fails with IndexError; with three keys it drops the extra
key. -/
theorem C2_witness :
    fix_keys ["only"] 1 = .error "IndexError" ∧
    fix_keys ["a", "b", "c"] 1 = .ok (["a", "b", "c"].take 2) :=
  ⟨(C2_too_few_keys_index_error ["only"] 1).1 (by decide),
    (C2_too_few_keys_index_error ["a", "b", "c"] 1).2 (by decide)⟩

/-- The split eigenvector matrix `graph_filter` builds for the boundary
pair `(a, b)`: `np.append(zeros[:, :a], eigenvec[:, a:b], zeros[:, b:])`,
i.e. the eigenvector matrix with every column outside `[a, b)` zeroed. -/
def bandMask {n : ℕ} (ev : Mat n) (a b : ℕ) : Mat n :=
  fun r c => if a ≤ (c : ℕ) ∧ (c : ℕ) < b then ev r c else 0

/-- Embedding of the `pairwise` helper from `nigsp/utils.py`: adjacent
pairs of a list. -/
def pairsList : List ℕ → List (ℕ × ℕ)
  | a :: b :: rest => (a, b) :: pairsList (b :: rest)
  | _ => []

/-- The full boundary list `[0] + freq_idx + [None]` of `graph_filter`,
with `None` meaning the column count `n`. -/
def boundariesOf (fs : List ℕ) (n : ℕ) : List ℕ := 0 :: fs ++ [n]

/-- The list of split eigenvector matrices, one per band. -/
def evecSplitList {n : ℕ} (ev : Mat n) (fs : List ℕ) : List (Mat n) :=
  (pairsList (boundariesOf fs n)).map (fun p => bandMask ev p.1 p.2)

/-- Element-wise sum of two matrices. -/
def matAdd {n : ℕ} (A B : Mat n) : Mat n := fun i j => A i j + B i j

/-- The zero matrix. -/
def matZero (n : ℕ) : Mat n := fun _ _ => 0

/-- Element-wise sum of a list of matrices. -/
def matSumL {n : ℕ} (l : List (Mat n)) : Mat n := l.foldr matAdd (matZero n)

/-- Embedding of `graph_filter`'s index validation plus split-eigenvector
construction: each cutoff must be nonzero and strictly below `n - 1`,
otherwise IndexError is raised. -/
def graph_filter_evec {n : ℕ} (ev : Mat n) (fs : List ℕ) :
    Except String (List (Mat n)) :=
  if fs.any (fun f => decide (f = 0) || decide (n - 1 ≤ f)) then
    .error "IndexError"
  else .ok (evecSplitList ev fs)

/-- Bands whose boundaries all start at or after `b` contribute nothing to
a column strictly below `b`. -/
theorem bandSum_zero {n : ℕ} (ev : Mat n) (r c : Fin n) :
    ∀ (l : List ℕ) (b : ℕ), List.Chain' (· ≤ ·) (b :: l) → (c : ℕ) < b →
      matSumL ((pairsList (b :: l)).map (fun p => bandMask ev p.1 p.2)) r c
        = 0 := by
  intro l
  induction l with
  | nil => intro b _ _; simp [pairsList, matSumL, matZero]
  | cons d rest ih =>
    intro b hchain hc
    have hbd : b ≤ d := List.chain'_cons.mp hchain |>.1
    have htail := List.chain'_cons.mp hchain |>.2
    simp only [pairsList, List.map_cons, matSumL, List.foldr_cons, matAdd]
    have h1 : bandMask ev b d r c = 0 := by
      have hno : ¬ (b ≤ (c : ℕ) ∧ (c : ℕ) < d) := by omega
      simp [bandMask, hno]
    have h2 := ih d htail (by omega)
    simp only [matSumL] at h2
    rw [h1, h2, add_zero]

/-- A sorted boundary list whose interval covers the column index sums the
band masks to the original entry: the bands tile the interval. -/
theorem bandSum_eq {n : ℕ} (ev : Mat n) (r c : Fin n) :
    ∀ (l : List ℕ) (a : ℕ), List.Chain' (· ≤ ·) (a :: l) → a ≤ (c : ℕ) →
      (∀ m, (a :: l).getLast? = some m → (c : ℕ) < m) →
      matSumL ((pairsList (a :: l)).map (fun p => bandMask ev p.1 p.2)) r c
        = ev r c := by
  intro l
  induction l with
  | nil =>
    intro a _ ha hlast
    exact absurd (hlast a rfl) (by omega)
  | cons b rest ih =>
    intro a hchain ha hlast
    have hab : a ≤ b := List.chain'_cons.mp hchain |>.1
    have htail := List.chain'_cons.mp hchain |>.2
    simp only [pairsList, List.map_cons, matSumL, List.foldr_cons, matAdd]
    by_cases hc : (c : ℕ) < b
    · have h1 : bandMask ev a b r c = ev r c := by
        simp only [bandMask, if_pos (And.intro ha hc)]
      have h2 := bandSum_zero ev r c rest b htail hc
      simp only [matSumL] at h2
      rw [h1, h2, add_zero]
    · have h1 : bandMask ev a b r c = 0 := by
        have hno : ¬ (a ≤ (c : ℕ) ∧ (c : ℕ) < b) := by omega
        simp [bandMask, hno]
      have h2 := ih b htail (by omega)
        (fun m hm => hlast m (by simpa using hm))
      simp only [matSumL] at h2
      rw [h1, h2, zero_add]

/-- C5: with valid, strictly increasing cutoff indices, `graph_filter`
succeeds and the element-wise sum of all bands' split eigenvector matrices
reconstructs the eigenvector matrix exactly: the contiguous bands
partition the mode range with no overlap and no gap. -/
theorem C5_band_partition {n : ℕ} (ev : Mat n) (fs : List ℕ)
    (hchain : List.Chain' (· < ·) fs)
    (hvalid : ∀ f ∈ fs, 0 < f ∧ f < n - 1) :
    graph_filter_evec ev fs = .ok (evecSplitList ev fs) ∧
    matSumL (evecSplitList ev fs) = ev := by
  constructor
  · have hok : fs.any (fun f => decide (f = 0) || decide (n - 1 ≤ f)) = false := by
      rw [List.any_eq_false]
      intro f hf
      have := hvalid f hf
      simp only [Bool.or_eq_true, decide_eq_true_eq, not_or]
      omega
    simp only [graph_filter_evec, hok, Bool.false_eq_true, if_false]
  · funext r c
    have hchain2 : List.Chain' (· ≤ ·) (boundariesOf fs n) := by
      unfold boundariesOf
      rw [List.cons_append, List.chain'_cons']
      refine ⟨fun b _ => Nat.zero_le b, ?_⟩
      rw [List.chain'_append]
      refine ⟨List.Chain'.imp (fun _ _ h => h.le) hchain,
        List.chain'_singleton n, ?_⟩
      intro x hx y hy
      simp only [List.head?_cons, Option.mem_def, Option.some.injEq] at hy
      subst hy
      obtain ⟨hne, hxl⟩ := List.mem_getLast?_eq_getLast hx
      have hmem : x ∈ fs := hxl ▸ List.getLast_mem hne
      have := hvalid x hmem
      omega
    have hlast : ∀ m, (boundariesOf fs n).getLast? = some m → (c : ℕ) < m := by
      intro m hm
      unfold boundariesOf at hm
      rw [show (0 :: fs ++ [n]) = (0 :: fs) ++ [n] by simp,
        List.getLast?_concat] at hm
      obtain rfl : n = m := by simpa using hm
      exact c.isLt
    have := bandSum_eq ev r c (fs ++ [n]) 0 (by simpa [boundariesOf] using hchain2)
      (Nat.zero_le _) (by simpa [boundariesOf] using hlast)
    simpa [evecSplitList, boundariesOf] using this

/-- A concrete 4 by 4 matrix used to witness the band partition. -/
def mat4 : Mat 4 := fun i j => (i : ℚ) + 4 * (j : ℚ)

/-- C5 witness: a concrete split of a 4 by 4 matrix at cutoff 2. -/
theorem C5_witness :
    graph_filter_evec mat4 [2] = .ok (evecSplitList mat4 [2]) ∧
    matSumL (evecSplitList mat4 [2]) = mat4 :=
  C5_band_partition mat4 [2] (by simp) (by norm_num)

/-- A timeseries array: regions in the first axis, timepoints in the
second (this embedding covers the 2D case, where the `mean` flag of the
metric functions is a no-op since the result is 1D). -/
abbrev TS := List (List ℚ)

/-- Python's `str.lower()` applied character-wise. -/
def strLower (s : String) : String := String.mk (s.data.map Char.toLower)

/-- Embedding of `np.linalg.norm(ts, axis=1)`: per-region Euclidean norm
over the time axis.  The floating-point square root is abstracted as an
explicit function parameter `sqrtF`; every theorem below holds for any
choice of it. -/
def normAxis1 (sqrtF : ℚ → ℚ) (ts : TS) : List ℚ :=
  ts.map (fun row => sqrtF ((row.map (fun x => x * x)).sum))

/-- The body of `sdi` (metrics.py) after the keys argument has been
resolved: reject key lists whose length is not 2, canonically reorder the
two keys as low-then-high when they case-insensitively match
`["low", "high"]`, then return `log2` of the element-wise ratio of the
second band's per-region norms over the first band's.  `log2F` abstracts
the floating-point base-2 logarithm. -/
def sdi_core (sqrtF log2F : ℚ → ℚ) (ts_split : List (String × TS))
    (keys0 : List String) : Except String (List ℚ) :=
  if keys0.length ≠ 2 then
    .error "requires a dictionary with exactly two timeseries as input"
  else
    let check_keys := keys0.map strLower
    let keys1 :=
      if check_keys.all (fun k => k == "low" || k == "high") then
        [keys0.getD (check_keys.indexOf "low") "",
          keys0.getD (check_keys.indexOf "high") ""]
      else keys0
    match ts_split.lookup (keys1.getD 0 ""),
        ts_split.lookup (keys1.getD 1 "") with
    | some t0, some t1 =>
        .ok ((List.zipWith (fun a b => a / b) (normAxis1 sqrtF t1)
          (normAxis1 sqrtF t0)).map log2F)
    | _, _ => .error "KeyError"

/-- Embedding of `sdi(ts_split, mean, keys)` from
`nigsp/operations/metrics.py`: a `None` keys argument means the insertion
order of the dictionary; an explicit keys argument must be contained in
the dictionary keys. -/
def sdi (sqrtF log2F : ℚ → ℚ) (ts_split : List (String × TS))
    (keysArg : Option (List String)) : Except String (List ℚ) :=
  match keysArg with
  | none => sdi_core sqrtF log2F ts_split (ts_split.map Prod.fst)
  | some ks =>
    if ks.all (fun k => (ts_split.map Prod.fst).contains k) then
      sdi_core sqrtF log2F ts_split ks
    else .error "The provided keys do not match the provided dictionary"

/-- C6: for a two-band split whose names case-insensitively match
low/high, `sdi` returns `log2(norm(high) / norm(low))` per region, and
neither swapping the dictionary insertion order nor passing the two keys
in the opposite order through the keys argument changes the result, for
every square-root and logarithm implementation. -/
theorem C6_sdi_low_high_order (sqrtF log2F : ℚ → ℚ) (k1 k2 : String)
    (L H : TS) (h1 : strLower k1 = "low") (h2 : strLower k2 = "high") :
    sdi sqrtF log2F [(k1, L), (k2, H)] none =
      .ok ((List.zipWith (fun a b => a / b) (normAxis1 sqrtF H)
        (normAxis1 sqrtF L)).map log2F) ∧
    sdi sqrtF log2F [(k2, H), (k1, L)] none =
      sdi sqrtF log2F [(k1, L), (k2, H)] none ∧
    sdi sqrtF log2F [(k1, L), (k2, H)] (some [k2, k1]) =
      sdi sqrtF log2F [(k1, L), (k2, H)] none := by
  have hne : k1 ≠ k2 := by
    intro he
    rw [he, h2] at h1
    exact absurd h1 (by decide)
  have hb21 : (k2 == k1) = false := by
    simp only [beq_eq_false_iff_ne, ne_eq]
    exact fun he => hne he.symm
  have hb12 : (k1 == k2) = false := by
    simp only [beq_eq_false_iff_ne, ne_eq]
    exact hne
  refine ⟨?_, ?_, ?_⟩
  · simp [sdi, sdi_core, h1, h2, List.lookup, hb21, hb12, List.indexOf,
      List.findIdx, List.findIdx.go]
  · simp [sdi, sdi_core, h1, h2, List.lookup, hb21, hb12, List.indexOf,
      List.findIdx, List.findIdx.go]
  · simp [sdi, sdi_core, h1, h2, List.lookup, hb21, hb12, List.indexOf,
      List.findIdx, List.findIdx.go]

/-- C6 witness: concrete band names "Low"/"HIGH" with one-region
timeseries. -/
theorem C6_witness :
    sdi (fun x => x) (fun x => x) [("Low", [[3]]), ("HIGH", [[4]])] none =
      .ok ((List.zipWith (fun a b => a / b)
        (normAxis1 (fun x => x) [[4]])
        (normAxis1 (fun x => x) [[3]])).map (fun x => x)) ∧
    sdi (fun x => x) (fun x => x) [("HIGH", [[4]]), ("Low", [[3]])] none =
      sdi (fun x => x) (fun x => x) [("Low", [[3]]), ("HIGH", [[4]])] none ∧
    sdi (fun x => x) (fun x => x) [("Low", [[3]]), ("HIGH", [[4]])]
        (some ["HIGH", "Low"]) =
      sdi (fun x => x) (fun x => x) [("Low", [[3]]), ("HIGH", [[4]])] none :=
  C6_sdi_low_high_order (fun x => x) (fun x => x) "Low" "HIGH" [[3]] [[4]]
    (by decide) (by decide)

/-- All size-m combinations of a list in `itertools.combinations` order:
combinations containing the head first, each keeping element order. -/
def combinationsL {α : Type} : ℕ → List α → List (List α)
  | 0, _ => [[]]
  | _ + 1, [] => []
  | m + 1, x :: xs =>
    (combinationsL m xs).map (fun c => x :: c) ++ combinationsL (m + 1) xs

/-- The combination label `str(c).replace("'", "").replace(", ", "_and_")`
for a tuple of two or more key names: `"(a_and_b)"`. -/
def combKey (c : List String) : String :=
  "(" ++ String.intercalate "_and_" c ++ ")"

/-- Embedding of `np.zeros_like(ts)`. -/
def tsZerosLike (t : TS) : TS := t.map (fun row => row.map (fun _ => 0))

/-- Element-wise sum of two timeseries (`np.add`). -/
def tsAdd (a b : TS) : TS :=
  List.zipWith (List.zipWith (fun x y => x + y)) a b

/-- Python dictionary assignment `d[k] = v` on an insertion-ordered
association list: overwrite in place when the key exists, append
otherwise. -/
def dictSetTS (d : List (String × TS)) (k : String) (v : TS) :
    List (String × TS) :=
  if (d.lookup k).isSome then
    d.map (fun p => if p.1 == k then (k, v) else p)
  else d ++ [(k, v)]

/-- The value stored for one combination entry: `np.zeros_like` of the
first band, then `np.add` of every member band, all read from the current
state of the mapping. -/
def combValue (d : List (String × TS)) (keys : List String)
    (c : List String) : TS :=
  c.foldl (fun acc k => tsAdd acc ((d.lookup k).getD []))
    (tsZerosLike ((d.lookup (keys.getD 0 "")).getD []))

/-- Embedding of the combination-insertion loop opening `gsdi`
(metrics.py lines 138-148): when more than two keys are given, for every
n in `range(2, len(keys))` and every n-combination of the keys, the entry
`"(a_and_b...)"` holding the element-wise sum of the member bands is
written into the caller's `ts_split` dictionary itself. -/
def gsdi_extend (d : List (String × TS)) (keys : List String) :
    List (String × TS) :=
  if 2 < keys.length then
    ((List.range' 2 (keys.length - 2)).flatMap
        (fun m => combinationsL m keys)).foldl
      (fun acc c => dictSetTS acc (combKey c) (combValue acc keys c)) d
  else d

/-- Dictionary assignment never shrinks the mapping. -/
theorem dictSetTS_length_le (d : List (String × TS)) (k : String)
    (v : TS) : d.length ≤ (dictSetTS d k v).length := by
  unfold dictSetTS
  by_cases h : (d.lookup k).isSome
  · simp [h]
  · simp [h]

/-- Folding dictionary assignments never shrinks the mapping. -/
theorem foldl_dictSetTS_length_le (keys : List String) :
    ∀ (cs : List (List String)) (acc : List (String × TS)),
      acc.length ≤ (cs.foldl
        (fun a c => dictSetTS a (combKey c) (combValue a keys c))
        acc).length := by
  intro cs
  induction cs with
  | nil => intro acc; simp
  | cons c rest ih =>
    intro acc
    exact le_trans (dictSetTS_length_le acc (combKey c) (combValue acc keys c))
      (ih _)

/-- A combination label always begins with an opening parenthesis. -/
theorem combKey_head (c : List String) :
    (combKey c).data.head? = some '(' := by
  simp [combKey, String.data_append]

/-- A key absent from every entry has no lookup result. -/
theorem lookup_eq_none_of_forall {d : List (String × TS)} {k : String}
    (h : ∀ p ∈ d, p.1 ≠ k) : d.lookup k = none := by
  induction d with
  | nil => rfl
  | cons p rest ih =>
    have hp : (k == p.1) = false := by
      simp only [beq_eq_false_iff_ne, ne_eq]
      exact fun he => h p (by simp) he.symm
    simp only [List.lookup, hp]
    exact ih (fun q hq => h q (by simp [hq]))

/-- Size-2 combinations of a list with at least two elements exist. -/
theorem combinationsL_two_ne_nil {α : Type} :
    ∀ (l : List α), 2 ≤ l.length → combinationsL 2 l ≠ [] := by
  intro l
  induction l with
  | nil => intro h; simp at h
  | cons x xs ih =>
    intro h
    simp only [combinationsL]
    rcases xs with - | ⟨y, ys⟩
    · simp at h
    · intro hcontra
      rw [List.append_eq_nil] at hcontra
      have h1 := hcontra.1
      rw [List.map_eq_nil_iff] at h1
      have : combinationsL 1 (y :: ys) ≠ [] := by
        simp [combinationsL]
      exact this h1

/-- C10: calling `gsdi` on a mapping with more than two band keys mutates
the caller's dictionary: at least one combination entry is appended (the
mapping strictly grows whenever no existing key starts with an opening
parenthesis), and on the concrete three-band mapping a/b/c the mapping
afterwards carries the three pairwise combination entries holding the
element-wise sums. -/
theorem C10_gsdi_mutates_input :
    (∀ d : List (String × TS), 3 ≤ d.length →
      (∀ p ∈ d, p.1.data.head? ≠ some '(') →
      d.length < (gsdi_extend d (d.map Prod.fst)).length) ∧
    gsdi_extend [("a", [[1]]), ("b", [[2]]), ("c", [[4]])]
        ["a", "b", "c"] =
      [("a", [[1]]), ("b", [[2]]), ("c", [[4]]),
        ("(a_and_b)", [[3]]), ("(a_and_c)", [[5]]),
        ("(b_and_c)", [[6]])] := by
  constructor
  · intro d hlen hfresh
    have hklen : 3 ≤ (d.map Prod.fst).length := by simpa using hlen
    unfold gsdi_extend
    rw [if_pos (by omega)]
    have hrange : ∃ t, List.range' 2 ((d.map Prod.fst).length - 2)
        = 2 :: t := by
      have : (d.map Prod.fst).length - 2 = ((d.map Prod.fst).length - 3) + 1 := by
        omega
      rw [this, List.range'_succ]
      exact ⟨_, rfl⟩
    obtain ⟨t, ht⟩ := hrange
    rw [ht]
    have hflat : (2 :: t).flatMap (fun m => combinationsL m (d.map Prod.fst))
        = combinationsL 2 (d.map Prod.fst) ++
          t.flatMap (fun m => combinationsL m (d.map Prod.fst)) := by
      simp [List.flatMap_cons]
    rw [hflat]
    obtain ⟨c0, cs, hc⟩ := List.exists_cons_of_ne_nil
      (combinationsL_two_ne_nil (d.map Prod.fst) (by omega))
    rw [hc]
    rw [List.cons_append, List.foldl_cons]
    have hstep : (dictSetTS d (combKey c0)
        (combValue d (d.map Prod.fst) c0)).length = d.length + 1 := by
      unfold dictSetTS
      have hnone : d.lookup (combKey c0) = none :=
        lookup_eq_none_of_forall (fun p hp => by
          intro he
          have := hfresh p hp
          rw [he, combKey_head c0] at this
          exact this rfl)
      simp [hnone]
    calc d.length < d.length + 1 := by omega
      _ = (dictSetTS d (combKey c0) (combValue d (d.map Prod.fst) c0)).length :=
        hstep.symm
      _ ≤ _ := foldl_dictSetTS_length_le (d.map Prod.fst) _ _
  · with_unfolding_all rfl

/-- C10 witness: the growth statement instantiated at the concrete
three-band mapping. -/
theorem C10_witness :
    ([("a", [[1]]), ("b", [[2]]), ("c", [[4]])] : List (String × TS)).length
      < (gsdi_extend [("a", [[1]]), ("b", [[2]]), ("c", [[4]])]
          ([("a", [[1]]), ("b", [[2]]), ("c", [[4]])].map Prod.fst)).length :=
  C10_gsdi_mutates_input.1 [("a", [[1]]), ("b", [[2]]), ("c", [[4]])]
    (by decide) (by decide)

/-- The global numpy random-generator state: the seed it was created from
and the number of draws already consumed.  `np.random.default_rng(seed)`
yields the fresh state with counter 0.  The bit stream itself is
abstracted as a function of the seed and the draw counter, and every
theorem below holds for any stream. -/
structure RngState where
  seed : ℕ
  counter : ℕ

/-- A rectangular timeseries: regions by timepoints. -/
abbrev TSMat (n t : ℕ) := Fin n → Fin t → ℚ

/-- Embedding of `random_sign(eigenvec, n_surr, seed, stack)` from
`nigsp/operations/surrogates.py` (2D eigenvector case), with the ambient
generator state passed explicitly: the function begins with
`rng = np.random.default_rng(seed)`, discarding the incoming state.
Surrogate i consumes the draws `i*n .. i*n + n - 1`; the draw for column
c gives sign +1 or -1 and `eigenvec * r_sign` scales column c by it.  If
`stack`, the original eigenvector matrix is appended last. -/
def random_sign (gen : ℕ → ℕ → Bool) {n : ℕ} (g : RngState) (ev : Mat n)
    (n_surr : ℕ) (seed : ℕ) (stack : Bool) : List (Mat n) × RngState :=
  let _ := g
  let surr := (List.range n_surr).map (fun i =>
    fun (r c : Fin n) =>
      ev r c * (if gen seed (i * n + (c : ℕ)) then 1 else -1))
  (if stack then surr ++ [ev] else surr, ⟨seed, n_surr * n⟩)

/-- Embedding of `graph_fourier_transform(ts, ev)` on 2D arrays:
`ev.conj().T @ ts` over the rationals (real data, so conjugation is the
identity). -/
def gftF {n t : ℕ} (ev : Mat n) (ts : TSMat n t) : TSMat n t :=
  fun k τ => ∑ r, ev r k * ts r τ

/-- Transpose of a square matrix. -/
def matT {n : ℕ} (M : Mat n) : Mat n := fun i j => M j i

/-- Embedding of `_create_surr(timeseries, eigenvec, n_surr, seed, stack)`
(2D case): draw the sign-flipped eigenvector matrices, compute the Fourier
coefficients of the real timeseries once, and re-project them through each
randomized basis (`graph_fourier_transform(fourier_coeff, rand_evec.T)`). -/
def _create_surr (gen : ℕ → ℕ → Bool) {n t : ℕ} (g : RngState)
    (ts : TSMat n t) (ev : Mat n) (n_surr : ℕ) (seed : ℕ) (stack : Bool) :
    List (TSMat n t) × RngState :=
  let rs := random_sign gen g ev n_surr seed stack
  let fourier_coeff := gftF ev ts
  (rs.1.map (fun M => gftF (matT M) fourier_coeff), rs.2)

/-- C7: surrogate generation is a deterministic function of its arguments:
because `random_sign` re-seeds a fresh generator from the `seed` argument,
the surrogate ensembles produced by `random_sign` and `_create_surr` do
not depend on the ambient generator state, so two calls with identical
`(eigenvectors, n_surr, seed, stack)` - in particular a repeated call
after any number of prior draws - return identical ensembles, for every
underlying bit stream. -/
theorem C7_surrogates_reproducible (gen : ℕ → ℕ → Bool) {n t : ℕ}
    (g1 g2 : RngState) (ev : Mat n) (ts : TSMat n t) (n_surr seed : ℕ)
    (stack : Bool) :
    (random_sign gen g1 ev n_surr seed stack).1 =
      (random_sign gen g2 ev n_surr seed stack).1 ∧
    (_create_surr gen g1 ts ev n_surr seed stack).1 =
      (_create_surr gen g2 ts ev n_surr seed stack).1 ∧
    (_create_surr gen ((_create_surr gen g1 ts ev n_surr seed stack).2)
        ts ev n_surr seed stack).1 =
      (_create_surr gen g1 ts ev n_surr seed stack).1 :=
  ⟨rfl, rfl, rfl⟩

/-- Stable insertion of index `i` into an index list sorted by the values
of `l`: the building block of `np.argsort` on tie-free data. -/
def insertIdx (l : List ℚ) (i : ℕ) : List ℕ → List ℕ
  | [] => [i]
  | j :: rest =>
    if l.getD i 0 < l.getD j 0 then i :: j :: rest
    else j :: insertIdx l i rest

/-- Embedding of `np.argsort` along the last axis (by insertion sort;
it agrees with numpy's introsort wherever the values are distinct, the
only case the theorems below use). -/
def argsort (l : List ℚ) : List ℕ :=
  (List.range l.length).foldr (insertIdx l) []

/-- The core of `test_significance` with `method="frequentist"` on a 2D
ensemble (observations by draws), after the empirical data has been
appended: validate `p`, halve it for the two tails, inflate it to
`1/n_draws` when too few surrogates exist, and flag an observation when
the position of the last slice (the empirical data, at index
`real_idx = n_draws - 1`) within `argsort` falls in the first or last
`floor(real_idx * p) + 1` rank positions. -/
def test_sig_core (surr : List (List ℚ)) (p : ℚ) :
    Except String (List Bool) :=
  if p < 0 ∨ 1 < p then
    .error "p values should always be between 0 and 1"
  else
    let w := (surr.head?.getD []).length
    let real_idx := w - 1
    let p1 := p / 2
    let p2 := if p1 < 1 / (w : ℚ) then 1 / (w : ℚ) else p1
    let tol := (⌊(real_idx : ℚ) * p2⌋).toNat + 1
    .ok (surr.map (fun row =>
      let reord := (argsort row).map (fun idx => decide (idx = real_idx))
      (reord.take tol).any (fun b => b) ||
        (reord.drop (reord.length - tol)).any (fun b => b)))

/-- Embedding of the entry of `test_significance` for the frequentist
method: check that the data shape agrees with the ensemble, append the
data as the last slice unless it is already there, then run the
frequentist core. -/
def test_significance_freq (surr : List (List ℚ)) (data : Option (List ℚ))
    (p : ℚ) : Except String (List Bool) :=
  match data with
  | none => test_sig_core surr p
  | some dv =>
    if surr.length ≠ dv.length then
      .error "Provided empirical data and surrogate data shapes do not agree"
    else if (List.zip surr dv).all (fun rp => rp.1.getLast?.getD 0 == rp.2)
      then test_sig_core surr p
    else test_sig_core (List.zipWith (fun row x => row ++ [x]) surr dv) p

/-- C8: against the five surrogate values 0.1, 0.2, 0.3, 0.4, 0.5, the
frequentist test at p = 0.4 flags an observation strictly below the
ensemble minimum or strictly above its maximum as significant, and does
not flag an observation placed at the median (between the second and
third surrogate): with 6 slices, the tolerated tail is
`floor(5 * 0.2) + 1 = 2` rank positions on each side. -/
theorem C8_frequentist_boundary (d : ℚ) :
    (d < 1/10 →
      test_significance_freq [[1/10, 1/5, 3/10, 2/5, 1/2]] (some [d]) (2/5)
        = .ok [true]) ∧
    (1/2 < d →
      test_significance_freq [[1/10, 1/5, 3/10, 2/5, 1/2]] (some [d]) (2/5)
        = .ok [true]) ∧
    (1/5 < d → d < 3/10 →
      test_significance_freq [[1/10, 1/5, 3/10, 2/5, 1/2]] (some [d]) (2/5)
        = .ok [false]) := by
  refine ⟨?_, ?_, ?_⟩
  · intro h
    have hb : ((1/2 : ℚ) == d) = false := by
      rw [beq_eq_false_iff_ne]
      intro he
      rw [← he] at h
      linarith
    have c1 : ¬ (1/10 : ℚ) < d := by linarith
    have c2 : ¬ (1/5 : ℚ) < d := by linarith
    have c3 : ¬ (3/10 : ℚ) < d := by linarith
    have c4 : ¬ (2/5 : ℚ) < d := by linarith
    have c5 : ¬ (1/2 : ℚ) < d := by linarith
    norm_num [test_significance_freq, test_sig_core, hb, argsort,
      List.range_succ, insertIdx, List.getD, h, c1, c2, c3, c4, c5]
  · intro h
    have hb : ((1/2 : ℚ) == d) = false := by
      rw [beq_eq_false_iff_ne]
      intro he
      rw [← he] at h
      linarith
    have c1 : ¬ d < 1/10 := by linarith
    have c2 : ¬ d < 1/5 := by linarith
    have c3 : ¬ d < 3/10 := by linarith
    have c4 : ¬ d < 2/5 := by linarith
    have c5 : ¬ d < 1/2 := by linarith
    norm_num [test_significance_freq, test_sig_core, hb, argsort,
      List.range_succ, insertIdx, List.getD, h, c1, c2, c3, c4, c5]
  · intro hlo hhi
    have hb : ((1/2 : ℚ) == d) = false := by
      rw [beq_eq_false_iff_ne]
      intro he
      rw [← he] at hhi
      linarith
    have c1 : ¬ d < 1/10 := by linarith
    have c2 : ¬ d < 1/5 := by linarith
    have c3 : d < 2/5 := by linarith
    have c4 : d < 1/2 := by linarith
    have c5 : (1/10 : ℚ) < d := by linarith
    have c6 : (1/5 : ℚ) < d := by linarith
    have c7 : ¬ (3/10 : ℚ) < d := by linarith
    have c8 : ¬ (2/5 : ℚ) < d := by linarith
    have c9 : ¬ (1/2 : ℚ) < d := by linarith
    norm_num [test_significance_freq, test_sig_core, hb, argsort,
      List.range_succ, insertIdx, List.getD, hlo, hhi,
      c1, c2, c3, c4, c5, c6, c7, c8, c9]

/-- C8 witness: concrete observations 0 (below the minimum), 1 (above the
maximum) and 1/4 (at the median). -/
theorem C8_witness :
    test_significance_freq [[1/10, 1/5, 3/10, 2/5, 1/2]] (some [0]) (2/5)
      = .ok [true] ∧
    test_significance_freq [[1/10, 1/5, 3/10, 2/5, 1/2]] (some [1]) (2/5)
      = .ok [true] ∧
    test_significance_freq [[1/10, 1/5, 3/10, 2/5, 1/2]] (some [1/4]) (2/5)
      = .ok [false] :=
  ⟨(C8_frequentist_boundary 0).1 (by norm_num),
    (C8_frequentist_boundary 1).2.1 (by norm_num),
    (C8_frequentist_boundary (1/4)).2.2 (by norm_num) (by norm_num)⟩

end Nigsp
